import Mathlib

/-!
Verification development for the megaphone dynamic-repartitioning library.

The Rust sources embedded here are `src/src/lib.rs` (the control protocol:
`Control`, `ControlInst`, `ControlSet`, `ControlSetBuilder`, `key_to_bin`) and
`src/src/state_machine.rs` (the per-key state-machine operator). Panicking
assertions and out-of-bounds indexing are modelled by `Option.none`; machine
integers (`u64`, `usize`) are modelled as `Nat` (none of the embedded
operations can overflow: they only decrement, compare or shift).
-/

namespace Megaphone

/-- A bin identifier; wraps a `usize` (src/src/lib.rs:27). -/
structure Bin where
  bin : Nat
deriving DecidableEq, Repr

/-- A control instruction (src/src/lib.rs:42-49): provide a whole new map,
move one bin to a target worker, or do nothing. -/
inductive ControlInst where
  | map : List Nat → ControlInst
  | move : Bin → Nat → ControlInst
  | none : ControlInst
deriving DecidableEq, Repr

/-- A control message (src/src/lib.rs:18-23): a sequence number, the total
count of fragments to be expected for that sequence, and an instruction. -/
structure Control where
  sequence : Nat
  count : Nat
  inst : ControlInst
deriving DecidableEq, Repr

/-- Embeds `key_to_bin` (src/src/lib.rs:29-31): `key >> (size_of::<u64>() * 8 - BIN_SHIFT)`.
The build-time constant `BIN_SHIFT` (a cargo feature fixing a value in 1..=20,
src/src/lib.rs:139-178) is taken as an explicit parameter; `size_of::<u64>() * 8 = 8 * 8`. -/
def key_to_bin (BIN_SHIFT : Nat) (key : Nat) : Nat :=
  key >>> (8 * 8 - BIN_SHIFT)

/-- A compiled set of control instructions (src/src/lib.rs:60-67). The
`Antichain<T>` frontier is modelled as the list of inserted times; no claim
depends on antichain minimisation. -/
structure ControlSet (T : Type) where
  sequence : Nat
  frontier : List T
  map : List Nat
deriving DecidableEq, Repr

/-- Accumulates control fragments into one `ControlSet` (src/src/lib.rs:78-85). -/
structure ControlSetBuilder (T : Type) where
  sequence : Option Nat
  frontier : List T
  instructions : List ControlInst
  count : Option Nat
deriving DecidableEq, Repr

/-- Embeds `ControlSetBuilder::default()`: every field empty. -/
def ControlSetBuilder.empty {T : Type} : ControlSetBuilder T :=
  ⟨Option.none, [], [], Option.none⟩

/-- The instruction-recording step of `apply` (src/src/lib.rs:102-105): a
`ControlInst::None` is consumed silently, any other instruction is pushed. -/
def pushInst (insts : List ControlInst) : ControlInst → List ControlInst
  | ControlInst.none => insts
  | inst => insts ++ [inst]

/-- Embeds `ControlSetBuilder::apply` (src/src/lib.rs:89-107). The declared count is
taken from the first fragment; `assert!(*count > 0)` (too many fragments) and
`assert_eq!` (inconsistent sequence number) panic, modelled as `Option.none`. -/
def ControlSetBuilder.apply {T : Type} (b : ControlSetBuilder T) (control : Control) :
    Option (ControlSetBuilder T) :=
  let count := b.count.getD control.count
  if count = 0 then Option.none
  else
    let count := count - 1
    match b.sequence with
    | some s =>
      if s = control.sequence then
        some { b with count := some count,
                      instructions := pushInst b.instructions control.inst }
      else Option.none
    | Option.none =>
      some { b with sequence := some control.sequence, count := some count,
                    instructions := pushInst b.instructions control.inst }

/-- Feed a list of fragments to a builder in order, propagating any panic. -/
def applyAll {T : Type} (b : ControlSetBuilder T) : List Control → Option (ControlSetBuilder T)
  | [] => some b
  | c :: cs => (b.apply c).bind fun b₁ => applyAll b₁ cs

/-- One step of the instruction loop in `ControlSetBuilder::build`
(src/src/lib.rs:120-129): `Map` clears the map and extends it with the new
one; `Move(Bin(bin), target)` performs `map[bin] = target`, which in Rust
panics when `bin` is out of bounds, modelled as `Option.none`; `None` is a no-op. -/
def applyInst (m : List Nat) : ControlInst → Option (List Nat)
  | ControlInst.map newMap => some newMap
  | ControlInst.move binId target =>
      if binId.bin < m.length then some (m.set binId.bin target) else Option.none
  | ControlInst.none => some m

/-- The instruction loop of `ControlSetBuilder::build`, in arrival order. -/
def applyInsts (m : List Nat) : List ControlInst → Option (List Nat)
  | [] => some m
  | inst :: insts =>
    match applyInst m inst with
    | some m₁ => applyInsts m₁ insts
    | Option.none => Option.none

/-- Embeds `ControlSetBuilder::build` (src/src/lib.rs:113-136). The assertion
`assert_eq!(0, self.count.unwrap_or(0))`, the final `self.sequence.unwrap()`
and any out-of-bounds `Move` in the instruction loop panic, modelled as
`Option.none`. The map starts from a clone of `previous.map()`. -/
def ControlSetBuilder.build {T : Type} (b : ControlSetBuilder T) (previous : ControlSet T) :
    Option (ControlSet T) :=
  if b.count.getD 0 ≠ 0 then Option.none
  else
    match applyInsts previous.map b.instructions, b.sequence with
    | some m, some s => some { sequence := s, frontier := b.frontier, map := m }
    | _, _ => Option.none

/-- The instructions a fragment list contributes to a builder, in arrival
order: every instruction except the unrecorded `ControlInst.none`. -/
def recordedInsts (cs : List Control) : List ControlInst :=
  cs.filterMap fun c =>
    match c.inst with
    | ControlInst.none => Option.none
    | inst => some inst

/-- The instructions a single fragment records: none for `ControlInst.none`. -/
def recOne : ControlInst → List ControlInst
  | ControlInst.none => []
  | inst => [inst]

theorem pushInst_eq (insts : List ControlInst) (i : ControlInst) :
    pushInst insts i = insts ++ recOne i := by
  cases i <;> simp [pushInst, recOne]

theorem recordedInsts_cons (c : Control) (cs : List Control) :
    recordedInsts (c :: cs) = recOne c.inst ++ recordedInsts cs := by
  cases hc : c.inst <;> simp [recordedInsts, recOne, hc]

/-- Characterisation of `applyAll` from a builder whose sequence and count are
already fixed: it succeeds exactly when every fragment carries the fixed
sequence number and the remaining count suffices, decrementing the count once
per fragment and recording the fragments' non-`None` instructions in order. -/
theorem applyAll_running {T : Type} (s k : Nat) (fr : List T) (insts : List ControlInst)
    (cs : List Control) :
    applyAll ⟨some s, fr, insts, some k⟩ cs =
      if (∀ c ∈ cs, c.sequence = s) ∧ cs.length ≤ k then
        some ⟨some s, fr, insts ++ recordedInsts cs, some (k - cs.length)⟩
      else Option.none := by
  induction cs generalizing k insts with
  | nil => simp [applyAll, recordedInsts]
  | cons c cs ih =>
    rw [applyAll]
    rcases k with _ | k₁
    · have hcond : ¬ ((∀ x ∈ c :: cs, x.sequence = s) ∧ (c :: cs).length ≤ 0) := by
        simp
      rw [if_neg hcond]
      simp [ControlSetBuilder.apply]
    · by_cases hseq : c.sequence = s
      · have happ : (ControlSetBuilder.apply ⟨some s, fr, insts, some (k₁ + 1)⟩ c) =
            some ⟨some s, fr, pushInst insts c.inst, some k₁⟩ := by
          simp [ControlSetBuilder.apply, hseq]
        rw [happ, Option.some_bind, ih, pushInst_eq, recordedInsts_cons]
        by_cases hcond : (∀ x ∈ cs, x.sequence = s) ∧ cs.length ≤ k₁
        · have hcond₂ : (∀ x ∈ c :: cs, x.sequence = s) ∧ (c :: cs).length ≤ k₁ + 1 :=
            ⟨List.forall_mem_cons.mpr ⟨hseq, hcond.1⟩, by simpa using Nat.succ_le_succ hcond.2⟩
          rw [if_pos hcond, if_pos hcond₂]
          simp [Nat.succ_sub_succ, List.append_assoc]
        · have hcond₂ : ¬ ((∀ x ∈ c :: cs, x.sequence = s) ∧ (c :: cs).length ≤ k₁ + 1) := by
            intro hh
            exact hcond ⟨fun x hx => hh.1 x (List.mem_cons_of_mem _ hx),
              Nat.le_of_succ_le_succ (by simpa using hh.2)⟩
          rw [if_neg hcond, if_neg hcond₂]
      · have hcond : ¬ ((∀ x ∈ c :: cs, x.sequence = s) ∧ (c :: cs).length ≤ k₁ + 1) := by
          intro hh
          exact hseq (hh.1 c (List.mem_cons_self c cs))
        rw [if_neg hcond]
        have hseq₂ : ¬ (s = c.sequence) := fun h => hseq h.symm
        simp [ControlSetBuilder.apply, hseq₂]

/-- Characterisation of `applyAll` from the empty builder on a non-empty
fragment list: the first fragment fixes the sequence number and count. -/
theorem applyAll_empty_cons {T : Type} (c : Control) (cs : List Control) :
    applyAll (ControlSetBuilder.empty (T := T)) (c :: cs) =
      if (∀ x ∈ c :: cs, x.sequence = c.sequence) ∧ (c :: cs).length ≤ c.count then
        some ⟨some c.sequence, [], recordedInsts (c :: cs), some (c.count - (c :: cs).length)⟩
      else Option.none := by
  rw [applyAll]
  rcases hk : c.count with _ | k₁
  · have hcond : ¬ ((∀ x ∈ c :: cs, x.sequence = c.sequence) ∧ (c :: cs).length ≤ 0) := by
      simp
    rw [if_neg hcond]
    simp [ControlSetBuilder.apply, ControlSetBuilder.empty, hk]
  · have happ : (ControlSetBuilder.apply (ControlSetBuilder.empty (T := T)) c) =
        some ⟨some c.sequence, [], pushInst [] c.inst, some k₁⟩ := by
      simp [ControlSetBuilder.apply, ControlSetBuilder.empty, hk]
    rw [happ, Option.some_bind, applyAll_running, pushInst_eq, recordedInsts_cons]
    by_cases hcond : (∀ x ∈ cs, x.sequence = c.sequence) ∧ cs.length ≤ k₁
    · have hcond₂ : (∀ x ∈ c :: cs, x.sequence = c.sequence) ∧ (c :: cs).length ≤ k₁ + 1 :=
        ⟨List.forall_mem_cons.mpr ⟨rfl, hcond.1⟩, by simpa using Nat.succ_le_succ hcond.2⟩
      rw [if_pos hcond, if_pos hcond₂]
      simp [Nat.succ_sub_succ]
    · have hcond₂ : ¬ ((∀ x ∈ c :: cs, x.sequence = c.sequence) ∧ (c :: cs).length ≤ k₁ + 1) := by
        intro hh
        exact hcond ⟨fun x hx => hh.1 x (List.mem_cons_of_mem _ hx),
          Nat.le_of_succ_le_succ (by simpa using hh.2)⟩
      rw [if_neg hcond, if_neg hcond₂]


/-- Destructing a successful `applyAll` from the empty builder on a non-empty
list: all fragments share the first one's sequence number, at most the first
fragment's count of them arrived, and the builder state is determined. -/
theorem applyAll_empty_cons_some {T : Type} (c : Control) (cs : List Control)
    (b : ControlSetBuilder T)
    (hb : applyAll ControlSetBuilder.empty (c :: cs) = some b) :
    ((∀ x ∈ c :: cs, x.sequence = c.sequence) ∧ (c :: cs).length ≤ c.count)
    ∧ b = ⟨some c.sequence, [], recordedInsts (c :: cs), some (c.count - (c :: cs).length)⟩ := by
  rw [applyAll_empty_cons] at hb
  by_cases hcond : (∀ x ∈ c :: cs, x.sequence = c.sequence) ∧ (c :: cs).length ≤ c.count
  · rw [if_pos hcond] at hb
    exact ⟨hcond, (Option.some.inj hb).symm⟩
  · rw [if_neg hcond] at hb
    cases hb

/-- Destructing a successful `build`: the remaining count was zero, the
sequence number was set, and the returned map is the instruction fold. -/
theorem build_some_parts {T : Type} (b : ControlSetBuilder T)
    (previous cset : ControlSet T) (hbuild : b.build previous = some cset) :
    applyInsts previous.map b.instructions = some cset.map
    ∧ b.sequence = some cset.sequence ∧ b.frontier = cset.frontier
    ∧ b.count.getD 0 = 0 := by
  rw [ControlSetBuilder.build] at hbuild
  by_cases hcnt : b.count.getD 0 ≠ 0
  · rw [if_pos hcnt] at hbuild
    cases hbuild
  · rw [if_neg hcnt] at hbuild
    rcases happ : applyInsts previous.map b.instructions with _ | m
    · rcases hseq : b.sequence with _ | s <;> simp [happ, hseq] at hbuild
    · rcases hseq : b.sequence with _ | s
      · simp [happ, hseq] at hbuild
      · simp only [happ, hseq] at hbuild
        cases hbuild
        simpa [happ, hseq] using hcnt

/-- The `build` of a builder in the canonical post-`applyAll` state. -/
theorem build_explicit {T : Type} (s k : Nat) (insts : List ControlInst)
    (previous : ControlSet T) :
    ControlSetBuilder.build ⟨some s, [], insts, some k⟩ previous =
      if k = 0 then
        match applyInsts previous.map insts with
        | some m => some ⟨s, [], m⟩
        | Option.none => Option.none
      else Option.none := by
  by_cases hk : k = 0
  · subst hk
    rw [ControlSetBuilder.build]
    simp only [Option.getD_some, ne_eq, not_true_eq_false, reduceIte, if_true]
    rcases happ : applyInsts previous.map insts with _ | m <;> simp [happ]
  · rw [ControlSetBuilder.build]
    simp [hk]


/-- C9: `key_to_bin` is the pure deterministic function taking the top
`BIN_SHIFT` bits of its 64-bit argument — it equals `key >>> (64 - BIN_SHIFT)`
— and for every key below `2 ^ 64` its value lies in `[0, 2 ^ BIN_SHIFT)`,
for every build-time `BIN_SHIFT` in `1..=20`. -/
theorem key_to_bin_top_bits (B key : Nat) (hB₁ : 1 ≤ B) (hB₂ : B ≤ 20)
    (hkey : key < 2 ^ 64) :
    key_to_bin B key = key >>> (64 - B) ∧ key_to_bin B key < 2 ^ B := by
  have h64 : 8 * 8 - B = 64 - B := rfl
  constructor
  · rw [key_to_bin, h64]
  · rw [key_to_bin, h64, Nat.shiftRight_eq_div_pow]
    refine Nat.div_lt_of_lt_mul ?_
    calc key < 2 ^ 64 := hkey
    _ = 2 ^ (64 - B) * 2 ^ B := by
        rw [← pow_add]
        congr 1
        omega

/-- Witness for C9 at `BIN_SHIFT = 4` and the largest 64-bit key. -/
theorem key_to_bin_top_bits_witness :
    (1 ≤ 4 ∧ 4 ≤ 20 ∧ 2 ^ 64 - 1 < 2 ^ 64)
    ∧ (key_to_bin 4 (2 ^ 64 - 1) = (2 ^ 64 - 1) >>> (64 - 4)
        ∧ key_to_bin 4 (2 ^ 64 - 1) < 2 ^ 4) :=
  ⟨⟨by norm_num, by norm_num, by norm_num⟩,
    key_to_bin_top_bits 4 (2 ^ 64 - 1) (by norm_num) (by norm_num) (by norm_num)⟩

/-- C1 counterexample: one fragment with `count = 1` carrying
`Move(Bin(5), 0)` against a previous map of length 1. Exactly `count`
fragments are applied (the `applyAll` succeeds), yet `build` fails, because
the Rust `map[bin] = target` indexing panics out of bounds. -/
theorem build_exact_count_cex :
    applyAll (ControlSetBuilder.empty (T := Nat)) [⟨7, 1, ControlInst.move ⟨5⟩ 0⟩]
      = some ⟨some 7, [], [ControlInst.move ⟨5⟩ 0], some 0⟩
    ∧ ControlSetBuilder.build (T := Nat) ⟨some 7, [], [ControlInst.move ⟨5⟩ 0], some 0⟩
        ⟨0, [], [0]⟩ = Option.none := by
  constructor <;> rfl

/-- C1 (amended): for a non-empty fragment list sharing `(s, cnt)` accepted in
full by a builder, `build(previous)` yields a `ControlSet` if and only if
exactly `cnt` fragments were applied AND the accumulated instruction fold over
`previous.map` succeeds (every `Move` stays in bounds of the map it meets);
and the result is a deterministic function of the fragments and `previous`. -/
theorem build_iff_exact_count_inbounds {T : Type} (s cnt : Nat)
    (c : Control) (cs : List Control)
    (hshare : ∀ x ∈ c :: cs, x.sequence = s ∧ x.count = cnt)
    (b : ControlSetBuilder T)
    (hb : applyAll ControlSetBuilder.empty (c :: cs) = some b)
    (previous : ControlSet T) :
    ((b.build previous).isSome ↔
      ((c :: cs).length = cnt
        ∧ (applyInsts previous.map (recordedInsts (c :: cs))).isSome))
    ∧ (∀ b₂, applyAll ControlSetBuilder.empty (c :: cs) = some b₂ →
        b₂.build previous = b.build previous) := by
  obtain ⟨hcs, hcc⟩ := hshare c (List.mem_cons_self c cs)
  subst hcs
  subst hcc
  obtain ⟨⟨hall, hle⟩, hbval⟩ := applyAll_empty_cons_some c cs b hb
  subst hbval
  constructor
  · rw [build_explicit]
    by_cases hlen : (c :: cs).length = c.count
    · rw [if_pos (by omega)]
      rcases happ : applyInsts previous.map (recordedInsts (c :: cs)) with _ | m
      · simp [hlen, happ]
      · simp [hlen, happ]
    · rw [if_neg (by omega)]
      simp only [Option.isSome_none, Bool.false_eq_true, false_iff]
      intro hcontra
      exact hlen hcontra.1
  · intro b₂ hb₂
    obtain ⟨-, hbval₂⟩ := applyAll_empty_cons_some c cs b₂ hb₂
    rw [hbval₂]

/-- Witness for C1 (amended): a single `None` fragment with `count = 1`. -/
theorem build_iff_exact_count_inbounds_witness :
    (∀ x ∈ [(⟨5, 1, ControlInst.none⟩ : Control)], x.sequence = 5 ∧ x.count = 1)
    ∧ (applyAll (ControlSetBuilder.empty (T := Nat)) [⟨5, 1, ControlInst.none⟩]
        = some ⟨some 5, [], [], some 0⟩)
    ∧ (((ControlSetBuilder.build (T := Nat) ⟨some 5, [], [], some 0⟩ ⟨0, [], [3]⟩).isSome ↔
        (([(⟨5, 1, ControlInst.none⟩ : Control)]).length = 1
          ∧ (applyInsts [3] (recordedInsts [⟨5, 1, ControlInst.none⟩])).isSome))
      ∧ (∀ b₂, applyAll (ControlSetBuilder.empty (T := Nat)) [⟨5, 1, ControlInst.none⟩] = some b₂ →
          b₂.build ⟨0, [], [3]⟩ =
            ControlSetBuilder.build (T := Nat) ⟨some 5, [], [], some 0⟩ ⟨0, [], [3]⟩)) :=
  ⟨by decide, rfl,
    build_iff_exact_count_inbounds 5 1 ⟨5, 1, ControlInst.none⟩ [] (by decide)
      ⟨some 5, [], [], some 0⟩ rfl ⟨0, [], [3]⟩⟩


/-- C2: whenever `build` returns a set, its map equals the fold, in arrival
order, of the fragments' accumulated non-`None` instructions over a clone of
`previous.map`; a `Map` instruction replaces the whole map, and an in-bounds
`Move bin target` writes `target` at index `bin` and leaves every other entry
unchanged. -/
theorem build_map_eq_instruction_fold {T : Type} (cs : List Control)
    (b : ControlSetBuilder T) (hb : applyAll ControlSetBuilder.empty cs = some b)
    (previous cset : ControlSet T) (hbuild : b.build previous = some cset) :
    applyInsts previous.map (recordedInsts cs) = some cset.map
    ∧ (∀ (m newMap : List Nat), applyInst m (ControlInst.map newMap) = some newMap)
    ∧ (∀ (m : List Nat) (bin target : Nat), bin < m.length →
        applyInst m (ControlInst.move ⟨bin⟩ target) = some (m.set bin target)
        ∧ (m.set bin target)[bin]? = some target
        ∧ ∀ j, j ≠ bin → (m.set bin target)[j]? = m[j]?) := by
  have hins : b.instructions = recordedInsts cs := by
    cases cs with
    | nil =>
      have hb₀ : b = ControlSetBuilder.empty := (Option.some.inj (by simpa [applyAll] using hb)).symm
      rw [hb₀]
      rfl
    | cons c cs =>
      obtain ⟨-, hbval⟩ := applyAll_empty_cons_some c cs b hb
      rw [hbval]
  refine ⟨?_, ?_, ?_⟩
  · rw [← hins]
    exact (build_some_parts b previous cset hbuild).1
  · intro m newMap
    rfl
  · intro m bin target hbin
    refine ⟨by simp [applyInst, hbin], List.getElem?_set_self hbin, ?_⟩
    intro j hj
    exact List.getElem?_set_ne (fun h => hj h.symm)

/-- Witness for C2: two fragments (`Move(0, 4)` then `Map([1, 2])`) whose
build replaces the previous map `[9]` with `[1, 2]`. -/
theorem build_map_eq_instruction_fold_witness :
    (applyAll (ControlSetBuilder.empty (T := Nat))
        [⟨3, 2, ControlInst.move ⟨0⟩ 4⟩, ⟨3, 2, ControlInst.map [1, 2]⟩]
      = some ⟨some 3, [], [ControlInst.move ⟨0⟩ 4, ControlInst.map [1, 2]], some 0⟩)
    ∧ (ControlSetBuilder.build (T := Nat)
        ⟨some 3, [], [ControlInst.move ⟨0⟩ 4, ControlInst.map [1, 2]], some 0⟩ ⟨9, [], [9]⟩
      = some ⟨3, [], [1, 2]⟩)
    ∧ applyInsts ([9] : List Nat)
        (recordedInsts [⟨3, 2, ControlInst.move ⟨0⟩ 4⟩, ⟨3, 2, ControlInst.map [1, 2]⟩])
      = some ([1, 2] : List Nat) :=
  ⟨rfl, rfl,
    (build_map_eq_instruction_fold (T := Nat)
      [⟨3, 2, ControlInst.move ⟨0⟩ 4⟩, ⟨3, 2, ControlInst.map [1, 2]⟩]
      ⟨some 3, [], [ControlInst.move ⟨0⟩ 4, ControlInst.map [1, 2]], some 0⟩ rfl
      ⟨9, [], [9]⟩ ⟨3, [], [1, 2]⟩ rfl).1⟩

/-- C3 counterexample: the two fragments `Move(Bin(0), 1)` and
`Move(Bin(0), 2)` share `sequence = 5, count = 2`, both delivery orders build
successfully, yet the committed mappings differ (`[2]` vs `[1]`): the built
mapping depends on arrival order. -/
theorem build_pair_order_cex :
    ((applyAll (ControlSetBuilder.empty (T := Nat))
        [⟨5, 2, ControlInst.move ⟨0⟩ 1⟩, ⟨5, 2, ControlInst.move ⟨0⟩ 2⟩]).bind
      (fun b => b.build ⟨0, [], [9]⟩) = some ⟨5, [], [2]⟩)
    ∧ ((applyAll (ControlSetBuilder.empty (T := Nat))
        [⟨5, 2, ControlInst.move ⟨0⟩ 2⟩, ⟨5, 2, ControlInst.move ⟨0⟩ 1⟩]).bind
      (fun b => b.build ⟨0, [], [9]⟩) = some ⟨5, [], [1]⟩)
    ∧ (⟨5, [], [2]⟩ : ControlSet Nat).map ≠ (⟨5, [], [1]⟩ : ControlSet Nat).map := by
  refine ⟨rfl, rfl, by decide⟩

/-- C3 (amended): for every pair of fragments `c₁, c₂` sharing
`sequence = 5, count = 2` and every previous set, `build` does not fire after
zero or one applied fragment; and whenever the two recorded instructions
commute as transformers of `previous.map`, both delivery orders yield the
same built `ControlSet` (in general the mapping follows arrival order and the
two orders may differ). -/
theorem build_pair_fire_and_commute {T : Type} (c₁ c₂ : Control)
    (h₁ : c₁.sequence = 5 ∧ c₁.count = 2) (h₂ : c₂.sequence = 5 ∧ c₂.count = 2)
    (previous : ControlSet T) :
    ((ControlSetBuilder.empty (T := T)).build previous = Option.none)
    ∧ (∀ b, applyAll ControlSetBuilder.empty [c₁] = some b → b.build previous = Option.none)
    ∧ (∀ b, applyAll ControlSetBuilder.empty [c₂] = some b → b.build previous = Option.none)
    ∧ (applyInsts previous.map (recordedInsts [c₁, c₂])
          = applyInsts previous.map (recordedInsts [c₂, c₁]) →
        ∀ b₁₂ b₂₁, applyAll ControlSetBuilder.empty [c₁, c₂] = some b₁₂ →
          applyAll ControlSetBuilder.empty [c₂, c₁] = some b₂₁ →
          b₁₂.build previous = b₂₁.build previous) := by
  obtain ⟨hs₁, hc₁⟩ := h₁
  obtain ⟨hs₂, hc₂⟩ := h₂
  refine ⟨?_, ?_, ?_, ?_⟩
  · rw [ControlSetBuilder.build]
    rfl
  · intro b hb
    obtain ⟨-, hbval⟩ := applyAll_empty_cons_some c₁ [] b hb
    rw [hbval, build_explicit, if_neg (by simp [hc₁])]
  · intro b hb
    obtain ⟨-, hbval⟩ := applyAll_empty_cons_some c₂ [] b hb
    rw [hbval, build_explicit, if_neg (by simp [hc₂])]
  · intro hcomm b₁₂ b₂₁ hb₁₂ hb₂₁
    obtain ⟨-, hbval₁⟩ := applyAll_empty_cons_some c₁ [c₂] b₁₂ hb₁₂
    obtain ⟨-, hbval₂⟩ := applyAll_empty_cons_some c₂ [c₁] b₂₁ hb₂₁
    rw [hbval₁, hbval₂, build_explicit, build_explicit, hs₁, hs₂, hc₁, hc₂, hcomm]
    simp

/-- Witness for C3 (amended): `Move(Bin(0), 3)` paired with a `None` fragment;
build fires only after both fragments in either order, the two instructions
commute, and both orders build the same set. -/
theorem build_pair_fire_and_commute_witness :
    ((ControlSetBuilder.empty (T := Nat)).build ⟨0, [], [9]⟩ = Option.none)
    ∧ (∀ b : ControlSetBuilder Nat,
        applyAll ControlSetBuilder.empty [⟨5, 2, ControlInst.move ⟨0⟩ 3⟩] = some b →
        b.build ⟨0, [], [9]⟩ = Option.none)
    ∧ (∀ b : ControlSetBuilder Nat,
        applyAll ControlSetBuilder.empty [⟨5, 2, ControlInst.none⟩] = some b →
        b.build ⟨0, [], [9]⟩ = Option.none)
    ∧ (∀ b₁₂ b₂₁ : ControlSetBuilder Nat,
        applyAll ControlSetBuilder.empty
          [⟨5, 2, ControlInst.move ⟨0⟩ 3⟩, ⟨5, 2, ControlInst.none⟩] = some b₁₂ →
        applyAll ControlSetBuilder.empty
          [⟨5, 2, ControlInst.none⟩, ⟨5, 2, ControlInst.move ⟨0⟩ 3⟩] = some b₂₁ →
        b₁₂.build ⟨0, [], [9]⟩ = b₂₁.build ⟨0, [], [9]⟩) :=
  ⟨(build_pair_fire_and_commute ⟨5, 2, ControlInst.move ⟨0⟩ 3⟩ ⟨5, 2, ControlInst.none⟩
      (by decide) (by decide) ⟨0, [], [9]⟩).1,
    (build_pair_fire_and_commute ⟨5, 2, ControlInst.move ⟨0⟩ 3⟩ ⟨5, 2, ControlInst.none⟩
      (by decide) (by decide) ⟨0, [], [9]⟩).2.1,
    (build_pair_fire_and_commute ⟨5, 2, ControlInst.move ⟨0⟩ 3⟩ ⟨5, 2, ControlInst.none⟩
      (by decide) (by decide) ⟨0, [], [9]⟩).2.2.1,
    (build_pair_fire_and_commute ⟨5, 2, ControlInst.move ⟨0⟩ 3⟩ ⟨5, 2, ControlInst.none⟩
      (by decide) (by decide) ⟨0, [], [9]⟩).2.2.2 rfl⟩


/-- C7: after a builder accepted a fragment list, the next `apply` fails
(an assertion fires) exactly when the new fragment's sequence number differs
from the first fragment's, or when it would be one fragment more than the
declared count (the first fragment's count — its own when it is the first);
a fragment triggering neither condition is accepted. -/
theorem apply_fails_iff {T : Type} (cs : List Control) (b : ControlSetBuilder T)
    (hb : applyAll ControlSetBuilder.empty cs = some b) (c : Control) :
    b.apply c = Option.none ↔
      ((∃ c₀, cs.head? = some c₀ ∧ c₀.sequence ≠ c.sequence)
        ∨ cs.length + 1 > (cs.headD c).count) := by
  cases cs with
  | nil =>
    have hb₀ : b = ControlSetBuilder.empty :=
      (Option.some.inj (by simpa [applyAll] using hb)).symm
    subst hb₀
    rw [ControlSetBuilder.apply]
    simp only [ControlSetBuilder.empty, Option.getD_none, List.head?_nil, List.headD_nil,
      List.length_nil, Nat.zero_add, gt_iff_lt]
    by_cases hc : c.count = 0
    · simp [hc]
    · simp [hc, Nat.pos_of_ne_zero hc, Nat.lt_one_iff]
  | cons c₀ cs' =>
    obtain ⟨⟨hall, hle⟩, hbval⟩ := applyAll_empty_cons_some c₀ cs' b hb
    subst hbval
    rw [ControlSetBuilder.apply]
    simp only [List.length_cons] at hle
    simp only [List.head?_cons, List.headD_cons, Option.some.injEq, List.length_cons,
      gt_iff_lt, Option.getD_some]
    by_cases hcnt : c₀.count - (cs'.length + 1) = 0
    · have hgt : c₀.count < cs'.length + 1 + 1 := by omega
      by_cases hseq : c₀.sequence = c.sequence <;> simp [hcnt, hgt, hseq]
    · have hgt : ¬ (c₀.count < cs'.length + 1 + 1) := by omega
      by_cases hseq : c₀.sequence = c.sequence <;> simp [hcnt, hgt, hseq]

/-- Witness for C7: after one fragment of sequence 3, a fragment of
sequence 4 is rejected. -/
theorem apply_fails_iff_witness :
    (applyAll (ControlSetBuilder.empty (T := Nat)) [⟨3, 2, ControlInst.none⟩]
      = some ⟨some 3, [], [], some 1⟩)
    ∧ ((ControlSetBuilder.apply (T := Nat) ⟨some 3, [], [], some 1⟩ ⟨4, 2, ControlInst.none⟩
        = Option.none) ↔
      ((∃ c₀, ([(⟨3, 2, ControlInst.none⟩ : Control)]).head? = some c₀ ∧ c₀.sequence ≠ 4)
        ∨ ([(⟨3, 2, ControlInst.none⟩ : Control)]).length + 1 >
            (([(⟨3, 2, ControlInst.none⟩ : Control)]).headD ⟨4, 2, ControlInst.none⟩).count)) :=
  ⟨rfl, apply_fails_iff [⟨3, 2, ControlInst.none⟩] ⟨some 3, [], [], some 1⟩ rfl
    ⟨4, 2, ControlInst.none⟩⟩

/-- C8 counterexample: the previous map `[0, 0]` has length `2 ^ 1`, a single
`Map([0])` fragment is applied in full, and the built map has length 1: the
code never checks the length of a `Map` instruction's vector. -/
theorem build_length_cex :
    ((applyAll (ControlSetBuilder.empty (T := Nat)) [⟨0, 1, ControlInst.map [0]⟩]).bind
      (fun b => b.build ⟨9, [], [0, 0]⟩) = some ⟨0, [], [0]⟩)
    ∧ ([0, 0] : List Nat).length = 2 ^ 1
    ∧ (⟨0, [], [0]⟩ : ControlSet Nat).map.length ≠ 2 ^ 1 := by
  refine ⟨rfl, rfl, by decide⟩

/-- An instruction recorded from a fragment list is some fragment's instruction. -/
theorem recordedInsts_mem {cs : List Control} {inst : ControlInst}
    (h : inst ∈ recordedInsts cs) : ∃ x ∈ cs, x.inst = inst := by
  rw [recordedInsts] at h
  obtain ⟨x, hx, hfx⟩ := List.mem_filterMap.mp h
  refine ⟨x, hx, ?_⟩
  cases hxi : x.inst <;> rw [hxi] at hfx
  · exact Option.some.inj hfx
  · exact Option.some.inj hfx
  · cases hfx

/-- A `ControlInst.none` is never recorded. -/
theorem none_not_mem_recordedInsts (cs : List Control) :
    ControlInst.none ∉ recordedInsts cs := by
  intro h
  obtain ⟨x, hx, hxi⟩ := recordedInsts_mem h
  rw [recordedInsts] at h
  obtain ⟨y, hy, hfy⟩ := List.mem_filterMap.mp h
  cases hyi : y.inst <;> rw [hyi] at hfy
  · cases Option.some.inj hfy
  · cases Option.some.inj hfy
  · cases hfy

/-- Helper for C8: the instruction fold preserves a map length `L` as long as
every `Map` instruction it meets carries a vector of length `L`. -/
theorem applyInsts_length (L : Nat) (insts : List ControlInst) (m m₁ : List Nat)
    (hm : m.length = L)
    (hmaps : ∀ inst ∈ insts, ∀ newMap, inst = ControlInst.map newMap → newMap.length = L)
    (h : applyInsts m insts = some m₁) : m₁.length = L := by
  induction insts generalizing m with
  | nil =>
    rw [applyInsts] at h
    rw [← Option.some.inj h]
    exact hm
  | cons i insts ih =>
    rw [applyInsts] at h
    rcases hstep : applyInst m i with _ | m₂
    · rw [hstep] at h
      cases h
    · rw [hstep] at h
      refine ih m₂ ?_ (fun inst hi => hmaps inst (List.mem_cons_of_mem _ hi)) h
      cases i with
      | map newMap =>
        have := hmaps (ControlInst.map newMap) (List.mem_cons_self _ _) newMap rfl
        rw [applyInst] at hstep
        rw [← Option.some.inj hstep]
        exact this
      | move binId target =>
        rw [applyInst] at hstep
        by_cases hlt : binId.bin < m.length
        · rw [if_pos hlt] at hstep
          rw [← Option.some.inj hstep]
          simpa using hm
        · rw [if_neg hlt] at hstep
          cases hstep
      | none =>
        rw [applyInst] at hstep
        rw [← Option.some.inj hstep]
        exact hm

/-- C8 (amended): if the previous map has length `2 ^ B` and every `Map`
instruction among the applied fragments carries a vector of length `2 ^ B`,
then the map of any successfully built `ControlSet` also has length `2 ^ B`
(every bin in `[0, 2 ^ B)` keeps exactly one owner). -/
theorem build_preserves_length {T : Type} (B : Nat) (cs : List Control)
    (b : ControlSetBuilder T) (hb : applyAll ControlSetBuilder.empty cs = some b)
    (previous : ControlSet T) (hprev : previous.map.length = 2 ^ B)
    (hmaps : ∀ x ∈ cs, ∀ newMap, x.inst = ControlInst.map newMap → newMap.length = 2 ^ B)
    (cset : ControlSet T) (hbuild : b.build previous = some cset) :
    cset.map.length = 2 ^ B := by
  have hfold := (build_some_parts b previous cset hbuild).1
  have hins : b.instructions = recordedInsts cs := by
    cases cs with
    | nil =>
      have hb₀ : b = ControlSetBuilder.empty :=
        (Option.some.inj (by simpa [applyAll] using hb)).symm
      rw [hb₀]
      rfl
    | cons c cs =>
      obtain ⟨-, hbval⟩ := applyAll_empty_cons_some c cs b hb
      rw [hbval]
  rw [hins] at hfold
  refine applyInsts_length (2 ^ B) (recordedInsts cs) previous.map cset.map hprev ?_ hfold
  intro inst hinst newMap hmap
  obtain ⟨x, hx, hxi⟩ := recordedInsts_mem hinst
  refine hmaps x hx newMap ?_
  rw [hxi, hmap]

/-- Witness for C8 (amended): one `Move` and one full-length `Map` over a
length-2 map with `B = 1`. -/
theorem build_preserves_length_witness :
    (applyAll (ControlSetBuilder.empty (T := Nat))
        [⟨2, 2, ControlInst.map [1, 0]⟩, ⟨2, 2, ControlInst.move ⟨1⟩ 5⟩]
      = some ⟨some 2, [], [ControlInst.map [1, 0], ControlInst.move ⟨1⟩ 5], some 0⟩)
    ∧ ([7, 7] : List Nat).length = 2 ^ 1
    ∧ (ControlSetBuilder.build (T := Nat)
        ⟨some 2, [], [ControlInst.map [1, 0], ControlInst.move ⟨1⟩ 5], some 0⟩ ⟨2, [], [7, 7]⟩
      = some ⟨2, [], [1, 5]⟩)
    ∧ (⟨2, [], [1, 5]⟩ : ControlSet Nat).map.length = 2 ^ 1 :=
  ⟨rfl, rfl, rfl,
    build_preserves_length (T := Nat) 1
      [⟨2, 2, ControlInst.map [1, 0]⟩, ⟨2, 2, ControlInst.move ⟨1⟩ 5⟩]
      ⟨some 2, [], [ControlInst.map [1, 0], ControlInst.move ⟨1⟩ 5], some 0⟩ rfl
      ⟨2, [], [7, 7]⟩ rfl
      (by
        intro x hx newMap hmap
        rcases List.mem_cons.mp hx with rfl | hx
        · injection hmap with h
          rw [← h]
          decide
        · rcases List.mem_cons.mp hx with rfl | hx
          · cases hmap
          · cases hx)
      ⟨2, [], [1, 5]⟩ rfl⟩

/-- C10: a `None` fragment still decrements the remaining expected count and
fixes the builder's sequence number while recording no instruction; hence a
builder fed exactly `count` fragments of one sequence, all carrying
`ControlInst.none`, builds successfully and returns the previous map. -/
theorem none_fragment_progress {T : Type} :
    (∀ (b b₁ : ControlSetBuilder T) (c : Control), c.inst = ControlInst.none →
      b.apply c = some b₁ →
      b₁.count = some (b.count.getD c.count - 1)
      ∧ b₁.sequence = some (b.sequence.getD c.sequence)
      ∧ b₁.instructions = b.instructions)
    ∧ (∀ (s cnt : Nat) (cs : List Control) (previous : ControlSet T),
        cs ≠ [] → cs.length = cnt →
        (∀ x ∈ cs, x.sequence = s ∧ x.count = cnt ∧ x.inst = ControlInst.none) →
        ∃ b, applyAll ControlSetBuilder.empty cs = some b
          ∧ b.build previous = some ⟨s, [], previous.map⟩) := by
  constructor
  · intro b b₁ c hc happly
    rw [ControlSetBuilder.apply] at happly
    by_cases hcnt : b.count.getD c.count = 0
    · rw [if_pos hcnt] at happly
      cases happly
    · rw [if_neg hcnt] at happly
      rcases hseq : b.sequence with _ | s
      · rw [hseq] at happly
        have happly₁ : some (⟨some c.sequence, b.frontier, pushInst b.instructions c.inst,
            some (b.count.getD c.count - 1)⟩ : ControlSetBuilder T) = some b₁ := happly
        rw [← Option.some.inj happly₁]
        simp [pushInst, hc]
      · rw [hseq] at happly
        have happly₁ : (if s = c.sequence then
            some (⟨some s, b.frontier, pushInst b.instructions c.inst,
              some (b.count.getD c.count - 1)⟩ : ControlSetBuilder T)
          else Option.none) = some b₁ := happly
        by_cases hs : s = c.sequence
        · rw [if_pos hs] at happly₁
          rw [← Option.some.inj happly₁]
          simp [pushInst, hc, hs]
        · rw [if_neg hs] at happly₁
          cases happly₁
  · intro s cnt cs previous hne hlen hall
    cases cs with
    | nil => exact absurd rfl hne
    | cons c cs' =>
      obtain ⟨hcs, hcc, -⟩ := hall c (List.mem_cons_self c cs')
      have hrec : recordedInsts (c :: cs') = [] := by
        rw [List.eq_nil_iff_forall_not_mem]
        intro inst hinst
        obtain ⟨x, hx, hxi⟩ := recordedInsts_mem hinst
        rw [(hall x hx).2.2] at hxi
        rw [← hxi] at hinst
        exact none_not_mem_recordedInsts (c :: cs') hinst
      have hcond : (∀ x ∈ c :: cs', x.sequence = c.sequence) ∧ (c :: cs').length ≤ c.count := by
        constructor
        · intro x hx
          rw [(hall x hx).1, hcs]
        · rw [hcc, ← hlen]
      refine ⟨⟨some c.sequence, [], recordedInsts (c :: cs'),
        some (c.count - (c :: cs').length)⟩, ?_, ?_⟩
      · rw [applyAll_empty_cons, if_pos hcond]
      · rw [build_explicit, if_pos (by rw [hcc, ← hlen]; exact Nat.sub_self _), hrec,
          applyInsts, hcs]

/-- Witness for C10: two `None` fragments with `sequence = 8, count = 2`. -/
theorem none_fragment_progress_witness :
    (ControlSetBuilder.apply (T := Nat) ⟨some 8, [], [], some 2⟩ ⟨8, 2, ControlInst.none⟩
      = some ⟨some 8, [], [], some 1⟩)
    ∧ (some ((⟨some 8, [], [], some 2⟩ : ControlSetBuilder Nat).count.getD 2 - 1) = some 1)
    ∧ (∃ b : ControlSetBuilder Nat,
        applyAll ControlSetBuilder.empty
          [⟨8, 2, ControlInst.none⟩, ⟨8, 2, ControlInst.none⟩] = some b
        ∧ b.build ⟨0, [], [4, 4]⟩ = some ⟨8, [], (⟨0, [], [4, 4]⟩ : ControlSet Nat).map⟩) :=
  ⟨rfl, rfl,
    (none_fragment_progress (T := Nat)).2 8 2
      [⟨8, 2, ControlInst.none⟩, ⟨8, 2, ControlInst.none⟩] ⟨0, [], [4, 4]⟩
      (by decide) rfl (by decide)⟩


/-!
Embedding of src/src/state_machine.rs (`BinnedStateMachine::state_machine`).
Timestamps are naturals; a timely frontier is modelled as the list of elements
of the input's frontier antichain. The `StateHandle` machinery (`get_state`,
`notificator`) lives in `stateful.rs`, which is not under src/; those two
pieces are modelled from the spec where noted. The user fold
`F: Fn(&K, V, &mut D) -> (bool, I)` is modelled as a pure function
`K → V → D → Bool × List R × D` returning the removal flag, the emitted
outputs, and the mutated state.
-/

section StateMachine

variable {K V D R : Type}

/-- An input record of the state-machine operator: `(target, key_id, (key, val))`. -/
structure SRec (K V : Type) where
  target : Nat
  key_id : Nat
  key : K
  val : V
deriving DecidableEq, Repr

/-- Association-list lookup, modelling `HashMap` lookup. -/
def alookup [DecidableEq α] : List (α × β) → α → Option β
  | [], _ => Option.none
  | (a₀, b₀) :: l, a => if a = a₀ then some b₀ else alookup l a

/-- Association-list insert-or-update, modelling `HashMap` insertion. -/
def aset [DecidableEq α] : List (α × β) → α → β → List (α × β)
  | [], a, b => [(a, b)]
  | (a₀, b₀) :: l, a, b => if a = a₀ then (a, b) :: l else (a₀, b₀) :: aset l a b

/-- Association-list removal, modelling `HashMap::remove`. -/
def aerase [DecidableEq α] : List (α × β) → α → List (α × β)
  | [], _ => []
  | (a₀, b₀) :: l, a => if a = a₀ then l else (a₀, b₀) :: aerase l a

/-- Modelled from the spec: the per-worker state store is partitioned by bin
and `get_state(key_id)` resolves the bin-local key-to-state map
(`stateful.rs`, which implements `StateHandle`, is not under src/). -/
abbrev StateStore (K D : Type) := List (Nat × List (K × D))

/-- Modelled from the spec: resolve the bin-local map for `key_id`'s bin,
empty when the bin holds no state yet. -/
def get_state [DecidableEq K] (B : Nat) (store : StateStore K D) (key_id : Nat) :
    List (K × D) :=
  (alookup store (key_to_bin B key_id)).getD []

/-- The per-record body of the operator (src/src/state_machine.rs:59-66 and
80-87): resolve the bin map, look up or default-construct the state for `key`
(`entry(key).or_insert_with(Default::default)`), invoke `fold` on it, delete
the entry when `remove`, and emit the produced outputs. -/
def processRecord [DecidableEq K] [Inhabited D] (B : Nat)
    (fold : K → V → D → Bool × List R × D) (store : StateStore K D) (r : SRec K V) :
    StateStore K D × List R :=
  let bin := key_to_bin B r.key_id
  let m := get_state B store r.key_id
  let d₀ := (alookup m r.key).getD default
  let res := fold r.key r.val d₀
  let m₁ := aset m r.key res.2.2
  let m₂ := if res.1 then aerase m₁ r.key else m₁
  (aset store bin m₂, res.2.1)

/-- The per-batch loop over records, collecting the session's outputs. -/
def processRecords [DecidableEq K] [Inhabited D] (B : Nat)
    (fold : K → V → D → Bool × List R × D) (store : StateStore K D) :
    List (SRec K V) → StateStore K D × List R
  | [] => (store, [])
  | r :: rs =>
    let p₁ := processRecord B fold store r
    let p₂ := processRecords B fold p₁.1 rs
    (p₂.1, p₁.2 ++ p₂.2)

/-- The operator's persistent state across invocations: the pending buffer
(time → stashed records), the times with a requested notification, and the
state store. -/
structure OpState (K V D : Type) where
  pending : List (Nat × List (SRec K V))
  notified : List Nat
  store : StateStore K D
deriving Repr

/-- The operator's initial state: everything empty. -/
def OpState.initial : OpState K V D := ⟨[], [], []⟩

/-- Embeds `frontier.less_than(t)`: some frontier element is strictly below `t`. -/
def frontierLessThan (f : List Nat) (t : Nat) : Bool :=
  f.any fun x => decide (x < t)

/-- Embeds `frontier.less_equal(t)`: records timed `t` may still arrive. A requested
time is delivered by the notificator once this is false ("`t` has closed"). -/
def frontierLessEqual (f : List Nat) (t : Nat) : Bool :=
  f.any fun x => decide (x ≤ t)

/-- Modelled from the spec: `notify_at` registers a time with the missing
`stateful.rs` notificator; duplicate registrations are idempotent (the Rust
drain is a no-op for an already-drained time). -/
def notifyAt (notified : List Nat) (t : Nat) : List Nat :=
  if t ∈ notified then notified else notified ++ [t]

/-- Sorted insertion of a time. -/
def insertTime (t : Nat) : List Nat → List Nat
  | [] => [t]
  | u :: us => if t ≤ u then t :: u :: us else u :: insertTime t us

/-- Modelled from the spec: the notificator delivers closed times in
increasing order ("order across times must be non-decreasing"). -/
def sortTimes : List Nat → List Nat
  | [] => []
  | t :: ts => insertTime t (sortTimes ts)

/-- The notificator loop (src/src/state_machine.rs:56-69): for each delivered
closed time, remove its pending entry if any, process its records, and open
one output session for it. Also returns the list of `(time, record)` pairs
handed to `fold`, as ghost instrumentation for the theorems. -/
def drainClosed [DecidableEq K] [DecidableEq V] [Inhabited D] (B : Nat)
    (fold : K → V → D → Bool × List R × D) :
    List Nat → OpState K V D → OpState K V D × List (Nat × List R) × List (Nat × SRec K V)
  | [], s => (s, [], [])
  | t :: ts, s =>
    match alookup s.pending t with
    | some pend =>
      let p := processRecords B fold s.store pend
      let rest := drainClosed B fold ts ⟨aerase s.pending t, s.notified, p.1⟩
      (rest.1, (t, p.2) :: rest.2.1, pend.map (fun r => (t, r)) ++ rest.2.2)
    | Option.none => drainClosed B fold ts s

/-- The input loop (src/src/state_machine.rs:72-90): a batch whose time is
still ahead of the frontier is stashed and a notification requested;
otherwise it is processed immediately in a fresh session. -/
def processInputs [DecidableEq K] [DecidableEq V] [Inhabited D] (B : Nat)
    (fold : K → V → D → Bool × List R × D) (f : List Nat) :
    List (Nat × List (SRec K V)) → OpState K V D →
    OpState K V D × List (Nat × List R) × List (Nat × SRec K V)
  | [], s => (s, [], [])
  | (t, data) :: rest, s =>
    if frontierLessThan f t then
      let pend := (alookup s.pending t).getD []
      processInputs B fold f rest
        ⟨aset s.pending t (pend ++ data), notifyAt s.notified t, s.store⟩
    else
      let p := processRecords B fold s.store data
      let next := processInputs B fold f rest ⟨s.pending, s.notified, p.1⟩
      (next.1, (t, p.2) :: next.2.1, data.map (fun r => (t, r)) ++ next.2.2)

/-- One invocation of the operator closure (src/src/state_machine.rs:50-91):
first the notificator loop over the requested times that have closed (in
increasing order), then the input loop. -/
def invocation [DecidableEq K] [DecidableEq V] [Inhabited D] (B : Nat)
    (fold : K → V → D → Bool × List R × D) (f : List Nat)
    (inputs : List (Nat × List (SRec K V))) (s : OpState K V D) :
    OpState K V D × List (Nat × List R) × List (Nat × SRec K V) :=
  let closed := sortTimes (s.notified.filter fun t => ! frontierLessEqual f t)
  let s₀ : OpState K V D :=
    ⟨s.pending, s.notified.filter (fun t => frontierLessEqual f t), s.store⟩
  let d := drainClosed B fold closed s₀
  let p := processInputs B fold f inputs d.1
  (p.1, d.2.1 ++ p.2.1, d.2.2 ++ p.2.2)

/-- A run of the operator: a list of steps, each a frontier and the input
batches arriving at that invocation. -/
def runOp [DecidableEq K] [DecidableEq V] [Inhabited D] (B : Nat)
    (fold : K → V → D → Bool × List R × D) :
    List (List Nat × List (Nat × List (SRec K V))) → OpState K V D →
    OpState K V D × List (Nat × List R) × List (Nat × SRec K V)
  | [], s => (s, [], [])
  | (f, inputs) :: steps, s =>
    let p := invocation B fold f inputs s
    let rest := runOp B fold steps p.1
    (rest.1, p.2.1 ++ rest.2.1, p.2.2 ++ rest.2.2)

/-- Modelled from the spec: the naive input loop of the always-buffering
variant, which "always buffers every record until its time closes" —
every batch is stashed and a notification requested, unconditionally. -/
def naiveProcessInputs [DecidableEq K] [DecidableEq V] [Inhabited D] (B : Nat)
    (fold : K → V → D → Bool × List R × D) (f : List Nat) :
    List (Nat × List (SRec K V)) → OpState K V D →
    OpState K V D × List (Nat × List R) × List (Nat × SRec K V)
  | [], s => (s, [], [])
  | (t, data) :: rest, s =>
    let pend := (alookup s.pending t).getD []
    naiveProcessInputs B fold f rest
      ⟨aset s.pending t (pend ++ data), notifyAt s.notified t, s.store⟩

/-- Modelled from the spec: one invocation of the always-buffering variant —
the same notificator loop, followed by the always-stash input loop. -/
def naiveInvocation [DecidableEq K] [DecidableEq V] [Inhabited D] (B : Nat)
    (fold : K → V → D → Bool × List R × D) (f : List Nat)
    (inputs : List (Nat × List (SRec K V))) (s : OpState K V D) :
    OpState K V D × List (Nat × List R) × List (Nat × SRec K V) :=
  let closed := sortTimes (s.notified.filter fun t => ! frontierLessEqual f t)
  let s₀ : OpState K V D :=
    ⟨s.pending, s.notified.filter (fun t => frontierLessEqual f t), s.store⟩
  let d := drainClosed B fold closed s₀
  let p := naiveProcessInputs B fold f inputs d.1
  (p.1, d.2.1 ++ p.2.1, d.2.2 ++ p.2.2)

/-- A run of the always-buffering variant. -/
def naiveRunOp [DecidableEq K] [DecidableEq V] [Inhabited D] (B : Nat)
    (fold : K → V → D → Bool × List R × D) :
    List (List Nat × List (Nat × List (SRec K V))) → OpState K V D →
    OpState K V D × List (Nat × List R) × List (Nat × SRec K V)
  | [], s => (s, [], [])
  | (f, inputs) :: steps, s =>
    let p := naiveInvocation B fold f inputs s
    let rest := naiveRunOp B fold steps p.1
    (rest.1, p.2.1 ++ rest.2.1, p.2.2 ++ rest.2.2)

/-- The multiset of timestamped records held in a pending buffer or arriving
in a list of input batches. -/
def recsMS (l : List (Nat × List (SRec K V))) :
    Multiset (Nat × SRec K V) :=
  (l.map fun p => ((p.2.map fun r => (p.1, r) : List (Nat × SRec K V)) : Multiset (Nat × SRec K V))).sum

/-- The multiset of all timestamped records arriving over a run. -/
def inputsMS
    (steps : List (List Nat × List (Nat × List (SRec K V)))) : Multiset (Nat × SRec K V) :=
  (steps.map fun st => recsMS st.2).sum

end StateMachine


section StateMachineLemmas

variable {K V D R : Type}

theorem alookup_aset_self [DecidableEq α] (l : List (α × β)) (a : α) (b : β) :
    alookup (aset l a b) a = some b := by
  induction l with
  | nil => simp [aset, alookup]
  | cons hd tl ih =>
    by_cases h : a = hd.1
    · simp [aset, alookup, h]
    · simp only [aset, alookup]
      rw [if_neg h]
      simp only [alookup]
      rw [if_neg h]
      exact ih

theorem alookup_aset_ne [DecidableEq α] (l : List (α × β)) (a a₁ : α) (b : β)
    (h : a₁ ≠ a) : alookup (aset l a b) a₁ = alookup l a₁ := by
  induction l with
  | nil => simp [aset, alookup, h]
  | cons hd tl ih =>
    by_cases ha : a = hd.1
    · simp only [aset]
      rw [if_pos ha]
      simp only [alookup]
      rw [if_neg (ha ▸ h), if_neg (ha ▸ h)]
    · simp only [aset]
      rw [if_neg ha]
      simp only [alookup]
      by_cases ha₁ : a₁ = hd.1
      · rw [if_pos ha₁, if_pos ha₁]
      · rw [if_neg ha₁, if_neg ha₁]
        exact ih

theorem alookup_aerase_ne [DecidableEq α] (l : List (α × β)) (a a₁ : α)
    (h : a₁ ≠ a) : alookup (aerase l a) a₁ = alookup l a₁ := by
  induction l with
  | nil => simp [aerase, alookup]
  | cons hd tl ih =>
    by_cases ha : a = hd.1
    · simp only [aerase]
      rw [if_pos ha]
      simp only [alookup]
      rw [if_neg (ha ▸ h)]
    · simp only [aerase]
      rw [if_neg ha]
      simp only [alookup]
      by_cases ha₁ : a₁ = hd.1
      · rw [if_pos ha₁, if_pos ha₁]
      · rw [if_neg ha₁, if_neg ha₁]
        exact ih

/-- The keys of an association list, without duplicates (the `HashMap` model's
well-formedness). -/
abbrev keysNodup (l : List (α × β)) : Prop := (l.map Prod.fst).Nodup

theorem alookup_eq_none_of_not_mem [DecidableEq α] (l : List (α × β)) (a : α)
    (h : a ∉ l.map Prod.fst) : alookup l a = Option.none := by
  induction l with
  | nil => rfl
  | cons hd tl ih =>
    rw [List.map_cons, List.mem_cons] at h
    push_neg at h
    rw [alookup, if_neg h.1]
    exact ih h.2

theorem mem_keys_aset [DecidableEq α] (l : List (α × β)) (a x : α) (b : β)
    (h : x ∈ (aset l a b).map Prod.fst) : x = a ∨ x ∈ l.map Prod.fst := by
  induction l with
  | nil =>
    rw [aset] at h
    simp at h
    exact Or.inl h
  | cons hd tl ih =>
    by_cases ha : a = hd.1
    · rw [aset, if_pos ha] at h
      simp only [List.map_cons, List.mem_cons] at h ⊢
      rcases h with h | h
      · exact Or.inl h
      · exact Or.inr (Or.inr h)
    · rw [aset, if_neg ha] at h
      simp only [List.map_cons, List.mem_cons] at h ⊢
      rcases h with h | h
      · exact Or.inr (Or.inl h)
      · rcases ih h with h₁ | h₁
        · exact Or.inl h₁
        · exact Or.inr (Or.inr h₁)

theorem keysNodup_aset [DecidableEq α] (l : List (α × β)) (a : α) (b : β)
    (h : keysNodup l) : keysNodup (aset l a b) := by
  induction l with
  | nil => simp [aset, keysNodup]
  | cons hd tl ih =>
    rw [keysNodup, List.map_cons, List.nodup_cons] at h
    by_cases ha : a = hd.1
    · rw [aset, if_pos ha, keysNodup, List.map_cons, List.nodup_cons]
      refine ⟨?_, h.2⟩
      show a ∉ tl.map Prod.fst
      rw [ha]
      exact h.1
    · rw [aset, if_neg ha, keysNodup, List.map_cons, List.nodup_cons]
      refine ⟨?_, ih h.2⟩
      intro hmem
      rcases mem_keys_aset tl a hd.1 b hmem with h₁ | h₁
      · exact ha h₁.symm
      · exact h.1 h₁

theorem alookup_aerase_self [DecidableEq α] (l : List (α × β)) (a : α)
    (h : keysNodup l) : alookup (aerase l a) a = Option.none := by
  induction l with
  | nil => rfl
  | cons hd tl ih =>
    rw [keysNodup, List.map_cons, List.nodup_cons] at h
    by_cases ha : a = hd.1
    · rw [aerase, if_pos ha]
      refine alookup_eq_none_of_not_mem tl a ?_
      rw [ha]
      exact h.1
    · rw [aerase, if_neg ha, alookup, if_neg ha]
      exact ih h.2

end StateMachineLemmas


section ClaimSix

variable {K V D R : Type}

/-- C6: for every record `(target, key_id, (key, val))` processed against a
well-formed bin map: the state for `key` is looked up in the bin-local map
resolved by `get_state(key_id)`, default-constructed when absent; the fold is
invoked exactly once on `(key, val, state)` — the emitted outputs are exactly
the fold's outputs — and the key's state entry afterwards is deleted if and
only if the fold returned `remove = true` (otherwise it holds the fold's new
state); every other key and every other bin is unchanged. -/
theorem processRecord_spec [DecidableEq K] [DecidableEq V] [Inhabited D] (B : Nat)
    (fold : K → V → D → Bool × List R × D) (store : StateStore K D) (r : SRec K V)
    (hnodup : keysNodup (get_state B store r.key_id)) :
    (processRecord B fold store r).2
      = (fold r.key r.val ((alookup (get_state B store r.key_id) r.key).getD default)).2.1
    ∧ alookup (get_state B (processRecord B fold store r).1 r.key_id) r.key
      = (if (fold r.key r.val ((alookup (get_state B store r.key_id) r.key).getD default)).1
          then Option.none
          else some (fold r.key r.val
            ((alookup (get_state B store r.key_id) r.key).getD default)).2.2)
    ∧ (∀ k, k ≠ r.key →
        alookup (get_state B (processRecord B fold store r).1 r.key_id) k
          = alookup (get_state B store r.key_id) k)
    ∧ (∀ binId, binId ≠ key_to_bin B r.key_id →
        alookup (processRecord B fold store r).1 binId = alookup store binId) := by
  set m := get_state B store r.key_id with hm
  set res := fold r.key r.val ((alookup m r.key).getD default) with hres
  set bin := key_to_bin B r.key_id with hbin
  set m₂ := if res.1 then aerase (aset m r.key res.2.2) r.key else aset m r.key res.2.2
    with hm₂
  have hpr : processRecord B fold store r = (aset store bin m₂, res.2.1) := rfl
  have hget : get_state B (aset store bin m₂) r.key_id = m₂ := by
    show (alookup (aset store bin m₂) bin).getD [] = m₂
    rw [alookup_aset_self, Option.getD_some]
  refine ⟨by rw [hpr], ?_, ?_, ?_⟩
  · rw [hpr, hget]
    by_cases hrem : res.1
    · rw [hm₂, if_pos hrem, if_pos hrem,
        alookup_aerase_self _ _ (keysNodup_aset m r.key res.2.2 hnodup)]
    · rw [hm₂, if_neg hrem, if_neg hrem, alookup_aset_self]
  · intro k hk
    rw [hpr, hget]
    by_cases hrem : res.1
    · rw [hm₂, if_pos hrem, alookup_aerase_ne _ _ _ hk, alookup_aset_ne _ _ _ _ hk]
    · rw [hm₂, if_neg hrem, alookup_aset_ne _ _ _ _ hk]
  · intro binId hbinId
    rw [hpr]
    exact alookup_aset_ne _ _ _ _ hbinId

end ClaimSix

/-- Witness for C6: key 0 with state 5 in bin 0, one record with value 3
under an accumulating fold. -/
theorem processRecord_spec_witness :
    keysNodup (get_state (K := Nat) (D := Nat) 4 [(0, [(0, 5)])] 0)
    ∧ ((processRecord 4 (fun _k v d => (false, [d + v], d + v)) [(0, [(0, 5)])] ⟨0, 0, 0, 3⟩).2
        = ((fun (_k v d : Nat) => (false, [d + v], d + v)) 0 3
            ((alookup (get_state (K := Nat) (D := Nat) 4 [(0, [(0, 5)])] 0) 0).getD default)).2.1
      ∧ alookup (get_state 4
          (processRecord 4 (fun _k v d => (false, [d + v], d + v))
            [(0, [(0, 5)])] ⟨0, 0, 0, 3⟩).1 0) 0
        = (if ((fun (_k v d : Nat) => (false, ([d + v] : List Nat), d + v)) 0 3
              ((alookup (get_state (K := Nat) (D := Nat) 4 [(0, [(0, 5)])] 0) 0).getD default)).1
            then Option.none
            else some ((fun (_k v d : Nat) => (false, ([d + v] : List Nat), d + v)) 0 3
              ((alookup (get_state (K := Nat) (D := Nat) 4 [(0, [(0, 5)])] 0) 0).getD default)).2.2)
      ∧ (∀ k, k ≠ 0 →
          alookup (get_state 4
            (processRecord 4 (fun _k v d => (false, [d + v], d + v))
              [(0, [(0, 5)])] ⟨0, 0, 0, 3⟩).1 0) k
            = alookup (get_state (K := Nat) (D := Nat) 4 [(0, [(0, 5)])] 0) k)
      ∧ (∀ binId, binId ≠ key_to_bin 4 0 →
          alookup (processRecord 4 (fun _k v d => (false, [d + v], d + v))
            [(0, [(0, 5)])] (⟨0, 0, 0, 3⟩ : SRec Nat Nat)).1 binId
            = alookup [(0, [(0, 5)])] binId)) :=
  ⟨by decide,
    processRecord_spec 4 (fun _k v d => (false, [d + v], d + v)) [(0, [(0, 5)])]
      ⟨0, 0, 0, 3⟩ (by decide)⟩


section Conservation

variable {K V D R : Type} [DecidableEq K] [DecidableEq V] [Inhabited D]

theorem add_shuffle₁ {M : Type} [AddCommMonoid M] (a b c d e : M)
    (h : a + b = c + d) : a + (e + b) = c + (e + d) := by
  calc a + (e + b) = a + b + e := by abel
  _ = c + d + e := by rw [h]
  _ = c + (e + d) := by abel

theorem add_shuffle₂ {M : Type} [AddCommMonoid M] (p q r u v w : M)
    (h₁ : u + r = v) (h₂ : p + q = u + w) : p + (r + q) = v + w := by
  calc p + (r + q) = p + q + r := by abel
  _ = u + w + r := by rw [h₂]
  _ = u + r + w := by abel
  _ = v + w := by rw [h₁]

theorem add_shuffle₃ {M : Type} [AddCommMonoid M] (p q r u v w x : M)
    (h₁ : u + r = v + w) (h₂ : p + q = u + x) : p + (r + q) = v + (w + x) := by
  calc p + (r + q) = p + q + r := by abel
  _ = u + x + r := by rw [h₂]
  _ = u + r + x := by abel
  _ = v + w + x := by rw [h₁]
  _ = v + (w + x) := by abel

omit [DecidableEq K] [DecidableEq V] [Inhabited D] in
theorem recsMS_cons (t : Nat) (l : List (SRec K V)) (p : List (Nat × List (SRec K V))) :
    recsMS ((t, l) :: p)
      = ((l.map fun r => (t, r) : List (Nat × SRec K V)) : Multiset (Nat × SRec K V))
        + recsMS p := by
  simp [recsMS]

omit [DecidableEq K] [DecidableEq V] in
theorem recsMS_aerase (p : List (Nat × List (SRec K V))) (t : Nat) (pend : List (SRec K V))
    (h : alookup p t = some pend) :
    recsMS (aerase p t)
      + ((pend.map fun r => (t, r) : List (Nat × SRec K V)) : Multiset (Nat × SRec K V))
      = recsMS p := by
  induction p with
  | nil => cases h
  | cons hd tl ih =>
    rcases hd with ⟨t₀, l₀⟩
    rw [alookup] at h
    by_cases ht : t = t₀
    · rw [if_pos ht] at h
      rw [aerase, if_pos ht, recsMS_cons, ← Option.some.inj h, ht]
      exact add_comm _ _
    · rw [if_neg ht] at h
      rw [aerase, if_neg ht, recsMS_cons, recsMS_cons, ← ih h]
      abel

omit [DecidableEq K] [DecidableEq V] in
theorem recsMS_aset_extend (p : List (Nat × List (SRec K V))) (t : Nat)
    (data : List (SRec K V)) :
    recsMS (aset p t ((alookup p t).getD [] ++ data))
      = recsMS p
        + ((data.map fun r => (t, r) : List (Nat × SRec K V)) : Multiset (Nat × SRec K V)) := by
  induction p with
  | nil =>
    rw [alookup, Option.getD_none, List.nil_append, aset, recsMS_cons]
    simp [recsMS]
  | cons hd tl ih =>
    rcases hd with ⟨t₀, l₀⟩
    by_cases ht : t = t₀
    · rw [alookup, if_pos ht, Option.getD_some, aset, if_pos ht, recsMS_cons, recsMS_cons,
        List.map_append, ht, ← Multiset.coe_add]
      abel
    · rw [alookup, if_neg ht, aset, if_neg ht, recsMS_cons, recsMS_cons, ih]
      abel

theorem drainClosed_pending (B : Nat) (fold : K → V → D → Bool × List R × D)
    (ts : List Nat) (s : OpState K V D) :
    recsMS (drainClosed B fold ts s).1.pending
      + ((drainClosed B fold ts s).2.2 : Multiset (Nat × SRec K V))
      = recsMS s.pending := by
  induction ts generalizing s with
  | nil => simp [drainClosed]
  | cons t ts ih =>
    rw [drainClosed]
    rcases hl : alookup s.pending t with _ | pend
    · exact ih s
    · have h₁ : recsMS (drainClosed B fold ts ⟨aerase s.pending t, s.notified,
            (processRecords B fold s.store pend).1⟩).1.pending
          + ((drainClosed B fold ts ⟨aerase s.pending t, s.notified,
              (processRecords B fold s.store pend).1⟩).2.2 : Multiset (Nat × SRec K V))
          = recsMS (aerase s.pending t) :=
        ih ⟨aerase s.pending t, s.notified, (processRecords B fold s.store pend).1⟩
      have h₂ := recsMS_aerase s.pending t pend hl
      show recsMS (drainClosed B fold ts ⟨aerase s.pending t, s.notified,
            (processRecords B fold s.store pend).1⟩).1.pending
          + (((pend.map fun r => (t, r))
              ++ (drainClosed B fold ts ⟨aerase s.pending t, s.notified,
                (processRecords B fold s.store pend).1⟩).2.2 : List (Nat × SRec K V))
            : Multiset (Nat × SRec K V))
          = recsMS s.pending
      rw [← Multiset.coe_add, ← h₂, ← h₁]
      abel

theorem processInputs_pending (B : Nat) (fold : K → V → D → Bool × List R × D)
    (f : List Nat) (inputs : List (Nat × List (SRec K V))) (s : OpState K V D) :
    recsMS (processInputs B fold f inputs s).1.pending
      + ((processInputs B fold f inputs s).2.2 : Multiset (Nat × SRec K V))
      = recsMS s.pending + recsMS inputs := by
  induction inputs generalizing s with
  | nil => simp [processInputs, recsMS]
  | cons td rest ih =>
    rcases td with ⟨t, data⟩
    rw [processInputs]
    by_cases hlt : frontierLessThan f t
    · rw [if_pos hlt]
      have h₁ : recsMS (processInputs B fold f rest
            ⟨aset s.pending t ((alookup s.pending t).getD [] ++ data),
              notifyAt s.notified t, s.store⟩).1.pending
          + ((processInputs B fold f rest
              ⟨aset s.pending t ((alookup s.pending t).getD [] ++ data),
                notifyAt s.notified t, s.store⟩).2.2 : Multiset (Nat × SRec K V))
          = recsMS (aset s.pending t ((alookup s.pending t).getD [] ++ data)) + recsMS rest :=
        ih ⟨aset s.pending t ((alookup s.pending t).getD [] ++ data),
          notifyAt s.notified t, s.store⟩
      rw [h₁, recsMS_aset_extend, recsMS_cons]
      abel
    · rw [if_neg hlt]
      have h₁ : recsMS (processInputs B fold f rest
            ⟨s.pending, s.notified, (processRecords B fold s.store data).1⟩).1.pending
          + ((processInputs B fold f rest
              ⟨s.pending, s.notified, (processRecords B fold s.store data).1⟩).2.2
            : Multiset (Nat × SRec K V))
          = recsMS s.pending + recsMS rest :=
        ih ⟨s.pending, s.notified, (processRecords B fold s.store data).1⟩
      show recsMS (processInputs B fold f rest
            ⟨s.pending, s.notified, (processRecords B fold s.store data).1⟩).1.pending
          + (((data.map fun r => (t, r))
              ++ (processInputs B fold f rest
                ⟨s.pending, s.notified, (processRecords B fold s.store data).1⟩).2.2
            : List (Nat × SRec K V)) : Multiset (Nat × SRec K V))
          = recsMS s.pending + recsMS ((t, data) :: rest)
      rw [← Multiset.coe_add, recsMS_cons]
      exact add_shuffle₁ _ _ _ _ _ h₁

theorem naiveProcessInputs_pending (B : Nat) (fold : K → V → D → Bool × List R × D)
    (f : List Nat) (inputs : List (Nat × List (SRec K V))) (s : OpState K V D) :
    recsMS (naiveProcessInputs B fold f inputs s).1.pending
      + ((naiveProcessInputs B fold f inputs s).2.2 : Multiset (Nat × SRec K V))
      = recsMS s.pending + recsMS inputs := by
  induction inputs generalizing s with
  | nil => simp [naiveProcessInputs, recsMS]
  | cons td rest ih =>
    rcases td with ⟨t, data⟩
    rw [naiveProcessInputs]
    have h₁ : recsMS (naiveProcessInputs B fold f rest
          ⟨aset s.pending t ((alookup s.pending t).getD [] ++ data),
            notifyAt s.notified t, s.store⟩).1.pending
        + ((naiveProcessInputs B fold f rest
            ⟨aset s.pending t ((alookup s.pending t).getD [] ++ data),
              notifyAt s.notified t, s.store⟩).2.2 : Multiset (Nat × SRec K V))
        = recsMS (aset s.pending t ((alookup s.pending t).getD [] ++ data)) + recsMS rest :=
      ih ⟨aset s.pending t ((alookup s.pending t).getD [] ++ data),
        notifyAt s.notified t, s.store⟩
    rw [h₁, recsMS_aset_extend, recsMS_cons]
    abel

theorem invocation_pending (B : Nat) (fold : K → V → D → Bool × List R × D)
    (f : List Nat) (inputs : List (Nat × List (SRec K V))) (s : OpState K V D) :
    recsMS (invocation B fold f inputs s).1.pending
      + ((invocation B fold f inputs s).2.2 : Multiset (Nat × SRec K V))
      = recsMS s.pending + recsMS inputs := by
  have h₁ : recsMS (drainClosed B fold
        (sortTimes (s.notified.filter fun t => ! frontierLessEqual f t))
        ⟨s.pending, s.notified.filter (fun t => frontierLessEqual f t), s.store⟩).1.pending
      + ((drainClosed B fold
          (sortTimes (s.notified.filter fun t => ! frontierLessEqual f t))
          ⟨s.pending, s.notified.filter (fun t => frontierLessEqual f t), s.store⟩).2.2
        : Multiset (Nat × SRec K V))
      = recsMS s.pending :=
    drainClosed_pending B fold _ _
  have h₂ := processInputs_pending B fold f inputs
    (drainClosed B fold (sortTimes (s.notified.filter fun t => ! frontierLessEqual f t))
      ⟨s.pending, s.notified.filter (fun t => frontierLessEqual f t), s.store⟩).1
  show recsMS (processInputs B fold f inputs
        (drainClosed B fold (sortTimes (s.notified.filter fun t => ! frontierLessEqual f t))
          ⟨s.pending, s.notified.filter (fun t => frontierLessEqual f t), s.store⟩).1).1.pending
      + (((drainClosed B fold (sortTimes (s.notified.filter fun t => ! frontierLessEqual f t))
            ⟨s.pending, s.notified.filter (fun t => frontierLessEqual f t), s.store⟩).2.2
          ++ (processInputs B fold f inputs
            (drainClosed B fold (sortTimes (s.notified.filter fun t => ! frontierLessEqual f t))
              ⟨s.pending, s.notified.filter (fun t => frontierLessEqual f t), s.store⟩).1).2.2
          : List (Nat × SRec K V)) : Multiset (Nat × SRec K V))
      = recsMS s.pending + recsMS inputs
  rw [← Multiset.coe_add]
  exact add_shuffle₂ _ _ _ _ _ _ h₁ h₂

theorem naiveInvocation_pending (B : Nat) (fold : K → V → D → Bool × List R × D)
    (f : List Nat) (inputs : List (Nat × List (SRec K V))) (s : OpState K V D) :
    recsMS (naiveInvocation B fold f inputs s).1.pending
      + ((naiveInvocation B fold f inputs s).2.2 : Multiset (Nat × SRec K V))
      = recsMS s.pending + recsMS inputs := by
  have h₁ : recsMS (drainClosed B fold
        (sortTimes (s.notified.filter fun t => ! frontierLessEqual f t))
        ⟨s.pending, s.notified.filter (fun t => frontierLessEqual f t), s.store⟩).1.pending
      + ((drainClosed B fold
          (sortTimes (s.notified.filter fun t => ! frontierLessEqual f t))
          ⟨s.pending, s.notified.filter (fun t => frontierLessEqual f t), s.store⟩).2.2
        : Multiset (Nat × SRec K V))
      = recsMS s.pending :=
    drainClosed_pending B fold _ _
  have h₂ := naiveProcessInputs_pending B fold f inputs
    (drainClosed B fold (sortTimes (s.notified.filter fun t => ! frontierLessEqual f t))
      ⟨s.pending, s.notified.filter (fun t => frontierLessEqual f t), s.store⟩).1
  show recsMS (naiveProcessInputs B fold f inputs
        (drainClosed B fold (sortTimes (s.notified.filter fun t => ! frontierLessEqual f t))
          ⟨s.pending, s.notified.filter (fun t => frontierLessEqual f t), s.store⟩).1).1.pending
      + (((drainClosed B fold (sortTimes (s.notified.filter fun t => ! frontierLessEqual f t))
            ⟨s.pending, s.notified.filter (fun t => frontierLessEqual f t), s.store⟩).2.2
          ++ (naiveProcessInputs B fold f inputs
            (drainClosed B fold (sortTimes (s.notified.filter fun t => ! frontierLessEqual f t))
              ⟨s.pending, s.notified.filter (fun t => frontierLessEqual f t), s.store⟩).1).2.2
          : List (Nat × SRec K V)) : Multiset (Nat × SRec K V))
      = recsMS s.pending + recsMS inputs
  rw [← Multiset.coe_add]
  exact add_shuffle₂ _ _ _ _ _ _ h₁ h₂

theorem runOp_pending (B : Nat) (fold : K → V → D → Bool × List R × D)
    (steps : List (List Nat × List (Nat × List (SRec K V)))) (s : OpState K V D) :
    recsMS (runOp B fold steps s).1.pending
      + ((runOp B fold steps s).2.2 : Multiset (Nat × SRec K V))
      = recsMS s.pending + inputsMS steps := by
  induction steps generalizing s with
  | nil => simp [runOp, inputsMS]
  | cons st steps ih =>
    rcases st with ⟨f, inputs⟩
    rw [runOp]
    have h₁ := invocation_pending B fold f inputs s
    have h₂ := ih (invocation B fold f inputs s).1
    show recsMS (runOp B fold steps (invocation B fold f inputs s).1).1.pending
        + (((invocation B fold f inputs s).2.2
            ++ (runOp B fold steps (invocation B fold f inputs s).1).2.2
          : List (Nat × SRec K V)) : Multiset (Nat × SRec K V))
        = recsMS s.pending + inputsMS ((f, inputs) :: steps)
    rw [← Multiset.coe_add]
    have hims : inputsMS ((f, inputs) :: steps) = recsMS inputs + inputsMS steps := by
      simp [inputsMS]
    rw [hims]
    exact add_shuffle₃ _ _ _ _ _ _ _ h₁ h₂

theorem naiveRunOp_pending (B : Nat) (fold : K → V → D → Bool × List R × D)
    (steps : List (List Nat × List (Nat × List (SRec K V)))) (s : OpState K V D) :
    recsMS (naiveRunOp B fold steps s).1.pending
      + ((naiveRunOp B fold steps s).2.2 : Multiset (Nat × SRec K V))
      = recsMS s.pending + inputsMS steps := by
  induction steps generalizing s with
  | nil => simp [naiveRunOp, inputsMS]
  | cons st steps ih =>
    rcases st with ⟨f, inputs⟩
    rw [naiveRunOp]
    have h₁ := naiveInvocation_pending B fold f inputs s
    have h₂ := ih (naiveInvocation B fold f inputs s).1
    show recsMS (naiveRunOp B fold steps (naiveInvocation B fold f inputs s).1).1.pending
        + (((naiveInvocation B fold f inputs s).2.2
            ++ (naiveRunOp B fold steps (naiveInvocation B fold f inputs s).1).2.2
          : List (Nat × SRec K V)) : Multiset (Nat × SRec K V))
        = recsMS s.pending + inputsMS ((f, inputs) :: steps)
    rw [← Multiset.coe_add]
    have hims : inputsMS ((f, inputs) :: steps) = recsMS inputs + inputsMS steps := by
      simp [inputsMS]
    rw [hims]
    exact add_shuffle₃ _ _ _ _ _ _ _ h₁ h₂

end Conservation


theorem frontierLessEqual_of_lessThan (f : List Nat) (t : Nat)
    (h : frontierLessThan f t = true) : frontierLessEqual f t = true := by
  rw [frontierLessThan, List.any_eq_true] at h
  obtain ⟨x, hx, hlt⟩ := h
  rw [frontierLessEqual, List.any_eq_true]
  refine ⟨x, hx, ?_⟩
  simp only [decide_eq_true_eq] at hlt ⊢
  omega

theorem mem_insertTime {a t : Nat} {l : List Nat} (h : a ∈ insertTime t l) :
    a = t ∨ a ∈ l := by
  induction l with
  | nil =>
    simp [insertTime] at h
    exact Or.inl h
  | cons u us ih =>
    rw [insertTime] at h
    by_cases hle : t ≤ u
    · rw [if_pos hle] at h
      rcases List.mem_cons.mp h with rfl | h
      · exact Or.inl rfl
      · exact Or.inr h
    · rw [if_neg hle] at h
      rcases List.mem_cons.mp h with rfl | h
      · exact Or.inr (List.mem_cons_self _ _)
      · rcases ih h with h | h
        · exact Or.inl h
        · exact Or.inr (List.mem_cons_of_mem _ h)

theorem mem_sortTimes {a : Nat} {l : List Nat} (h : a ∈ sortTimes l) : a ∈ l := by
  induction l with
  | nil => simp [sortTimes] at h
  | cons t ts ih =>
    rw [sortTimes] at h
    rcases mem_insertTime h with rfl | h
    · exact List.mem_cons_self _ _
    · exact List.mem_cons_of_mem _ (ih h)

theorem drainClosed_folded_times {K V D R : Type} [DecidableEq K] [DecidableEq V] [Inhabited D]
    (B : Nat) (fold : K → V → D → Bool × List R × D) (ts : List Nat) (s : OpState K V D) :
    ∀ tr ∈ (drainClosed B fold ts s).2.2, tr.1 ∈ ts := by
  induction ts generalizing s with
  | nil =>
    intro tr h
    simp [drainClosed] at h
  | cons t ts ih =>
    intro tr h
    rw [drainClosed] at h
    rcases hl : alookup s.pending t with _ | pend
    · rw [hl] at h
      exact List.mem_cons_of_mem _ (ih s tr h)
    · rw [hl] at h
      simp only at h
      rcases List.mem_append.mp h with h | h
      · obtain ⟨r, hr, hrfl⟩ := List.mem_map.mp h
        rw [← hrfl]
        exact List.mem_cons_self _ _
      · exact List.mem_cons_of_mem _
          (ih ⟨aerase s.pending t, s.notified, (processRecords B fold s.store pend).1⟩ tr h)

theorem processInputs_folded_frontier {K V D R : Type} [DecidableEq K] [DecidableEq V]
    [Inhabited D] (B : Nat) (fold : K → V → D → Bool × List R × D) (f : List Nat)
    (inputs : List (Nat × List (SRec K V))) (s : OpState K V D) :
    ∀ tr ∈ (processInputs B fold f inputs s).2.2, frontierLessThan f tr.1 = false := by
  induction inputs generalizing s with
  | nil =>
    intro tr h
    simp [processInputs] at h
  | cons td rest ih =>
    rcases td with ⟨t, data⟩
    intro tr h
    rw [processInputs] at h
    by_cases hlt : frontierLessThan f t
    · rw [if_pos hlt] at h
      exact ih _ tr h
    · rw [if_neg hlt] at h
      simp only at h
      rcases List.mem_append.mp h with h | h
      · obtain ⟨r, hr, hrfl⟩ := List.mem_map.mp h
        rw [← hrfl]
        simpa using hlt
      · exact ih _ tr h

theorem invocation_folded_frontier {K V D R : Type} [DecidableEq K] [DecidableEq V]
    [Inhabited D] (B : Nat) (fold : K → V → D → Bool × List R × D) (f : List Nat)
    (inputs : List (Nat × List (SRec K V))) (s : OpState K V D) :
    ∀ tr ∈ (invocation B fold f inputs s).2.2, frontierLessThan f tr.1 = false := by
  intro tr h
  have h₀ : tr ∈ (drainClosed B fold
        (sortTimes (s.notified.filter fun t => ! frontierLessEqual f t))
        ⟨s.pending, s.notified.filter (fun t => frontierLessEqual f t), s.store⟩).2.2
      ++ (processInputs B fold f inputs
        (drainClosed B fold (sortTimes (s.notified.filter fun t => ! frontierLessEqual f t))
          ⟨s.pending, s.notified.filter (fun t => frontierLessEqual f t), s.store⟩).1).2.2 := h
  rcases List.mem_append.mp h₀ with h₁ | h₁
  · have ht := mem_sortTimes (drainClosed_folded_times B fold _ _ tr h₁)
    have hp := List.mem_filter.mp ht
    cases hlt : frontierLessThan f tr.1
    · rfl
    · exact absurd (frontierLessEqual_of_lessThan f tr.1 hlt) (by simpa using hp.2)
  · exact processInputs_folded_frontier B fold f inputs _ tr h₁

/-- C4 counterexample: at frontier `[7]`, an arriving record timestamped 7 is
folded immediately by the optimized input path — even though
`frontierLessEqual [7] 7 = true`, i.e. the input frontier still permits more
records with time ≤ 7 to arrive, so time 7 has not closed. -/
theorem fold_before_close_cex :
    (invocation 4 (fun _k v (d : Nat) => (false, ([v] : List Nat), d + v))
        [7] [(7, [⟨0, 0, 0, 2⟩])] (OpState.initial (K := Nat) (V := Nat) (D := Nat))).2.2
      = [(7, ⟨0, 0, 0, 2⟩)]
    ∧ frontierLessEqual [7] 7 = true := by
  constructor <;> rfl

/-- C4 (amended): in the state-machine operator, the user fold is never
invoked at a time `t` while the input frontier still permits records with
time strictly less than `t` (it may run while `t` itself is still at the
frontier); and across any run from the initial state the folded records plus
the still-pending records are exactly the arrived records — so when the run
ends with an empty pending buffer, the fold was invoked exactly once per
arriving value. -/
theorem state_machine_fold_times {K V D R : Type} [DecidableEq K] [DecidableEq V] [Inhabited D]
    (B : Nat) (fold : K → V → D → Bool × List R × D)
    (steps : List (List Nat × List (Nat × List (SRec K V)))) :
    (∀ (f : List Nat) (inputs : List (Nat × List (SRec K V))) (s : OpState K V D),
      ∀ tr ∈ (invocation B fold f inputs s).2.2, frontierLessThan f tr.1 = false)
    ∧ ((runOp B fold steps OpState.initial).2.2 : Multiset (Nat × SRec K V))
        + recsMS (runOp B fold steps OpState.initial).1.pending = inputsMS steps
    ∧ ((runOp B fold steps OpState.initial).1.pending = [] →
        ((runOp B fold steps OpState.initial).2.2 : Multiset (Nat × SRec K V))
          = inputsMS steps) := by
  have hcons := runOp_pending B fold steps OpState.initial
  have hinit : recsMS (OpState.initial (K := K) (V := V) (D := D)).pending = 0 := rfl
  rw [hinit, zero_add] at hcons
  refine ⟨fun f inputs s => invocation_folded_frontier B fold f inputs s, ?_, ?_⟩
  · rw [← hcons]
    exact add_comm _ _
  · intro hpend
    rw [← hcons, hpend]
    show ((runOp B fold steps OpState.initial).2.2 : Multiset (Nat × SRec K V))
        = recsMS [] + ((runOp B fold steps OpState.initial).2.2 : Multiset (Nat × SRec K V))
    rw [show recsMS ([] : List (Nat × List (SRec K V))) = 0 from rfl, zero_add]

/-- Witness for C4 (amended): one record at time 7 arriving at frontier `[7]`. -/
theorem state_machine_fold_times_witness :
    frontierLessThan [7] ((7, (⟨0, 0, 0, 2⟩ : SRec Nat Nat)) : Nat × SRec Nat Nat).1 = false
    ∧ ((runOp 4 (fun _k v (d : Nat) => (false, ([v] : List Nat), d + v))
          [([7], [(7, [⟨0, 0, 0, 2⟩])])] OpState.initial).2.2 : Multiset (Nat × SRec Nat Nat))
        = inputsMS [([7], [(7, [⟨0, 0, 0, 2⟩])])] :=
  ⟨(state_machine_fold_times 4 (fun _k v (d : Nat) => (false, ([v] : List Nat), d + v))
      [([7], [(7, [⟨0, 0, 0, 2⟩])])]).1 [7] [(7, [⟨0, 0, 0, 2⟩])] OpState.initial
      (7, ⟨0, 0, 0, 2⟩) (by decide),
    (state_machine_fold_times 4 (fun _k v (d : Nat) => (false, ([v] : List Nat), d + v))
      [([7], [(7, [⟨0, 0, 0, 2⟩])])]).2.2 rfl⟩


theorem processInputs_eq_naive {K V D R : Type} [DecidableEq K] [DecidableEq V] [Inhabited D]
    (B : Nat) (fold : K → V → D → Bool × List R × D) (f : List Nat)
    (inputs : List (Nat × List (SRec K V))) (s : OpState K V D)
    (h : ∀ td ∈ inputs, frontierLessThan f td.1 = true) :
    processInputs B fold f inputs s = naiveProcessInputs B fold f inputs s := by
  induction inputs generalizing s with
  | nil => rfl
  | cons td rest ih =>
    rcases td with ⟨t, data⟩
    rw [processInputs, naiveProcessInputs,
      if_pos (h (t, data) (List.mem_cons_self _ _))]
    exact ih _ fun td htd => h td (List.mem_cons_of_mem _ htd)

theorem invocation_eq_naive {K V D R : Type} [DecidableEq K] [DecidableEq V] [Inhabited D]
    (B : Nat) (fold : K → V → D → Bool × List R × D) (f : List Nat)
    (inputs : List (Nat × List (SRec K V))) (s : OpState K V D)
    (h : ∀ td ∈ inputs, frontierLessThan f td.1 = true) :
    invocation B fold f inputs s = naiveInvocation B fold f inputs s := by
  simp only [invocation, naiveInvocation]
  rw [processInputs_eq_naive B fold f inputs _ h]

theorem runOp_eq_naive {K V D R : Type} [DecidableEq K] [DecidableEq V] [Inhabited D]
    (B : Nat) (fold : K → V → D → Bool × List R × D)
    (steps : List (List Nat × List (Nat × List (SRec K V)))) (s : OpState K V D)
    (h : ∀ st ∈ steps, ∀ td ∈ st.2, frontierLessThan st.1 td.1 = true) :
    runOp B fold steps s = naiveRunOp B fold steps s := by
  induction steps generalizing s with
  | nil => rfl
  | cons st steps ih =>
    rcases st with ⟨f, inputs⟩
    simp only [runOp, naiveRunOp]
    rw [invocation_eq_naive B fold f inputs s
      (fun td htd => h (f, inputs) (List.mem_cons_self _ _) td htd)]
    rw [ih _ fun st hst => h st (List.mem_cons_of_mem _ hst)]

/-- C5 counterexample: fold appends each value to a per-key list. A record
`(key 0, val 1)` at time 7 is stashed at frontier `[5]`; at frontier `[7]` a
second record `(key 0, val 2)` at time 7 qualifies for the immediate path
while the first is still buffered; the final empty frontier drains the rest.
The optimized operator ends with state `[2, 1]` for key 0, the
always-buffering variant with `[1, 2]`: final per-key states differ, so the
optimization is externally distinguishable on order-sensitive folds. -/
theorem optimized_vs_buffering_cex :
    alookup ((alookup (runOp 4 (fun _k v (d : List Nat) => (false, ([] : List Nat), d ++ [v]))
        [([5], [(7, [⟨0, 0, 0, 1⟩])]), ([7], [(7, [⟨0, 0, 0, 2⟩])]), ([], [])]
        OpState.initial).1.store 0).getD []) 0 = some [2, 1]
    ∧ alookup ((alookup (naiveRunOp 4 (fun _k v (d : List Nat) => (false, ([] : List Nat), d ++ [v]))
        [([5], [(7, [⟨0, 0, 0, 1⟩])]), ([7], [(7, [⟨0, 0, 0, 2⟩])]), ([], [])]
        OpState.initial).1.store 0).getD []) 0 = some [1, 2]
    ∧ some ([2, 1] : List Nat) ≠ some ([1, 2] : List Nat) := by
  refine ⟨rfl, rfl, by decide⟩

/-- C5 (amended): the optimized operator coincides with the always-buffering
variant whenever every arriving batch's time is still strictly ahead of the
frontier (so the immediate path never fires); and unconditionally the two
variants fold the same multiset of records — each arriving value exactly once
at its timestamp, once every pending time has drained — though emitted
outputs and final states can differ when one time's records are split between
the immediate and the buffered path. -/
theorem optimized_vs_buffering {K V D R : Type} [DecidableEq K] [DecidableEq V] [Inhabited D]
    (B : Nat) (fold : K → V → D → Bool × List R × D)
    (steps : List (List Nat × List (Nat × List (SRec K V)))) (s : OpState K V D) :
    ((∀ st ∈ steps, ∀ td ∈ st.2, frontierLessThan st.1 td.1 = true) →
      runOp B fold steps s = naiveRunOp B fold steps s)
    ∧ ((runOp B fold steps OpState.initial).2.2 : Multiset (Nat × SRec K V))
        + recsMS (runOp B fold steps OpState.initial).1.pending = inputsMS steps
    ∧ ((naiveRunOp B fold steps OpState.initial).2.2 : Multiset (Nat × SRec K V))
        + recsMS (naiveRunOp B fold steps OpState.initial).1.pending = inputsMS steps
    ∧ ((runOp B fold steps OpState.initial).1.pending = [] →
        (naiveRunOp B fold steps OpState.initial).1.pending = [] →
        ((runOp B fold steps OpState.initial).2.2 : Multiset (Nat × SRec K V))
          = ((naiveRunOp B fold steps OpState.initial).2.2 : Multiset (Nat × SRec K V))) := by
  have hrun := runOp_pending B fold steps OpState.initial
  have hnaive := naiveRunOp_pending B fold steps OpState.initial
  have hinit : recsMS (OpState.initial (K := K) (V := V) (D := D)).pending = 0 := rfl
  rw [hinit, zero_add] at hrun hnaive
  have hzero : recsMS ([] : List (Nat × List (SRec K V))) = 0 := rfl
  refine ⟨runOp_eq_naive B fold steps s, by rw [← hrun]; exact add_comm _ _,
    by rw [← hnaive]; exact add_comm _ _, ?_⟩
  intro h₁ h₂
  have e₁ : ((runOp B fold steps OpState.initial).2.2 : Multiset (Nat × SRec K V))
      = inputsMS steps := by
    rw [← hrun, h₁, hzero, zero_add]
  have e₂ : ((naiveRunOp B fold steps OpState.initial).2.2 : Multiset (Nat × SRec K V))
      = inputsMS steps := by
    rw [← hnaive, h₂, hzero, zero_add]
  rw [e₁, e₂]

/-- Witness for C5 (amended): a single stashed batch at time 9, frontier `[5]`,
followed by an empty frontier that drains it; both variants agree. -/
theorem optimized_vs_buffering_witness :
    (runOp 4 (fun _k v (d : Nat) => (false, ([v] : List Nat), d + v))
        [([5], [(9, [⟨0, 0, 0, 2⟩])]), ([], [])] OpState.initial
      = naiveRunOp 4 (fun _k v (d : Nat) => (false, ([v] : List Nat), d + v))
        [([5], [(9, [⟨0, 0, 0, 2⟩])]), ([], [])] OpState.initial)
    ∧ ((runOp 4 (fun _k v (d : Nat) => (false, ([v] : List Nat), d + v))
          [([5], [(9, [⟨0, 0, 0, 2⟩])]), ([], [])] OpState.initial).2.2
        : Multiset (Nat × SRec Nat Nat))
      = ((naiveRunOp 4 (fun _k v (d : Nat) => (false, ([v] : List Nat), d + v))
          [([5], [(9, [⟨0, 0, 0, 2⟩])]), ([], [])] OpState.initial).2.2
        : Multiset (Nat × SRec Nat Nat)) :=
  ⟨(optimized_vs_buffering 4 (fun _k v (d : Nat) => (false, ([v] : List Nat), d + v))
      [([5], [(9, [⟨0, 0, 0, 2⟩])]), ([], [])] OpState.initial).1 (by decide),
    (optimized_vs_buffering 4 (fun _k v (d : Nat) => (false, ([v] : List Nat), d + v))
      [([5], [(9, [⟨0, 0, 0, 2⟩])]), ([], [])] OpState.initial).2.2.2 rfl rfl⟩

end Megaphone
